import Mathlib

/-!
Verification of the Flax NNX/Linen bridge layer
(`flax/nnx/nnx/bridge/wrappers.py`).

The definitions below are a shallow embedding of the bridge code.
Pure functions of the source become Lean functions; the mutable
attribute storage of the wrapper objects becomes explicit state
passing; Python exceptions become `Except`.  Parts of the repository
that the bridge calls but that are not part of the excerpted source
(the graph traversal `graph.iter_graph`, the variable-typing utility
`variableslib`, the Linen variable store, `nnx.split` / `nnx.merge`)
are modelled from the specification; each such definition carries a
doc comment saying so.
-/

/-! ## String keys used by the bridge -/

def paramsKey : String := "params"

def defaultKey : String := "default"

def nnxKey : String := "nnx"

def graphdefKey : String := "graphdef"

/-! ## Association lists (model of Python dict / attribute storage) -/

/-- Lookup in an association list; models Python dict indexing
(first binding wins; real dicts have unique keys). -/
def alookup {α : Type} (k : String) : List (String × α) → Option α
  | [] => none
  | p :: ps => if p.1 = k then some p.2 else alookup k ps

/-- Key set of an association list (dict key view). -/
def akeys {α : Type} (l : List (String × α)) : List String :=
  l.map Prod.fst

/-- `aupdate l k v` models `d[k] = v` on a Python dict (or setting an
object attribute): replace the binding in place when the key is
present, append it otherwise. -/
def aupdate {α : Type} (l : List (String × α)) (k : String) (v : α) :
    List (String × α) :=
  if k ∈ akeys l then l.map (fun p => if p.1 = k then (k, v) else p)
  else l ++ [(k, v)]

theorem akeys_cons {α : Type} (p : String × α) (ps : List (String × α)) :
    akeys (p :: ps) = p.1 :: akeys ps := rfl

theorem alookup_eq_none_of_not_mem {α : Type} {k : String} :
    ∀ {l : List (String × α)}, k ∉ akeys l → alookup k l = none := by
  intro l
  induction l with
  | nil => intro _; rfl
  | cons p ps ih =>
    intro h
    rw [akeys_cons, List.mem_cons] at h
    push_neg at h
    rw [alookup, if_neg (fun hh => h.1 hh.symm)]
    exact ih h.2

theorem alookup_append_left {α : Type} (k : String) (l₁ l₂ : List (String × α))
    (v : α) (h : alookup k l₁ = some v) : alookup k (l₁ ++ l₂) = some v := by
  induction l₁ with
  | nil => exact absurd h (by simp [alookup])
  | cons p ps ih =>
    rw [alookup] at h
    by_cases hp : p.1 = k
    · rw [if_pos hp] at h
      rw [List.cons_append, alookup, if_pos hp]; exact h
    · rw [if_neg hp] at h
      rw [List.cons_append, alookup, if_neg hp]; exact ih h

theorem alookup_append_right {α : Type} (k : String) (l₁ l₂ : List (String × α))
    (h : alookup k l₁ = none) : alookup k (l₁ ++ l₂) = alookup k l₂ := by
  induction l₁ with
  | nil => rfl
  | cons p ps ih =>
    rw [alookup] at h
    by_cases hp : p.1 = k
    · rw [if_pos hp] at h; exact absurd h (by simp)
    · rw [if_neg hp] at h
      rw [List.cons_append, alookup, if_neg hp]
      exact ih h

theorem alookup_map_update_self {α : Type} (k : String) (v : α) :
    ∀ (l : List (String × α)), k ∈ akeys l →
      alookup k (l.map (fun p => if p.1 = k then (k, v) else p)) = some v := by
  intro l
  induction l with
  | nil => intro h; exact absurd h (by simp [akeys])
  | cons p ps ih =>
    intro h
    by_cases hp : p.1 = k
    · simp only [List.map_cons, if_pos hp]
      rw [alookup, if_pos rfl]
    · simp only [List.map_cons, if_neg hp]
      rw [alookup, if_neg hp]
      apply ih
      rw [akeys_cons, List.mem_cons] at h
      rcases h with h | h
      · exact absurd h.symm hp
      · exact h

theorem alookup_map_update_ne {α : Type} (k k' : String) (v : α)
    (h : k' ≠ k) :
    ∀ (l : List (String × α)),
      alookup k' (l.map (fun p => if p.1 = k then (k, v) else p)) =
        alookup k' l := by
  intro l
  induction l with
  | nil => rfl
  | cons p ps ih =>
    by_cases hp : p.1 = k
    · simp only [List.map_cons, if_pos hp]
      rw [alookup, alookup, if_neg (fun hh => h hh.symm),
        if_neg (by rw [hp]; exact fun hh => h hh.symm)]
      exact ih
    · simp only [List.map_cons, if_neg hp]
      rw [alookup, alookup]
      by_cases hpk : p.1 = k'
      · rw [if_pos hpk, if_pos hpk]
      · rw [if_neg hpk, if_neg hpk]; exact ih

theorem aupdate_alookup_self {α : Type} (l : List (String × α))
    (k : String) (v : α) : alookup k (aupdate l k v) = some v := by
  unfold aupdate
  by_cases hk : k ∈ akeys l
  · rw [if_pos hk]; exact alookup_map_update_self k v l hk
  · rw [if_neg hk,
      alookup_append_right k l _ (alookup_eq_none_of_not_mem hk),
      alookup, if_pos rfl]

theorem aupdate_alookup_ne {α : Type} (l : List (String × α))
    (k k' : String) (v : α) (h : k' ≠ k) :
    alookup k' (aupdate l k v) = alookup k' l := by
  unfold aupdate
  by_cases hk : k ∈ akeys l
  · rw [if_pos hk]; exact alookup_map_update_ne k k' v h l
  · rw [if_neg hk]
    cases hc : alookup k' l with
    | some v' => rw [alookup_append_left k' l _ v' hc]
    | none =>
      rw [alookup_append_right k' l _ hc]
      refine alookup_eq_none_of_not_mem ?_
      rw [akeys_cons, List.mem_cons]
      rintro (hh | hh)
      · exact h hh
      · simp [akeys] at hh

/-! ## Ownership graph and the Initialization-Phase Toggle

The stateful-module ownership graph: nodes are object identities,
`childMap` gives the sub-objects referenced by each object (a node can
be referenced by several parents — sharing), `isObject` tells whether
a node carries per-instance call-phase state (Python
`isinstance(value, Object)`).  The per-object `initializing` flags are
a separate explicit state `Nat → Bool` keyed by object identity. -/

structure ObjGraph where
  nodes : List Nat
  childMap : Nat → List Nat
  isObject : Nat → Bool

/-- Union of the children of all nodes of a list. -/
def childUnion (g : ObjGraph) : List Nat → List Nat
  | [] => []
  | a :: t => g.childMap a ++ childUnion g t

/-- One round of reachability expansion: a set together with all
children of its members, deduplicated. -/
def expand (g : ObjGraph) (s : List Nat) : List Nat :=
  (s ++ childUnion g s).dedup

/-- The set of objects reachable from `root`, computed by saturating
`expand` (`nodes.length` rounds always suffice). -/
def reachList (g : ObjGraph) (root : Nat) : List Nat :=
  (expand g)^[g.nodes.length] [root]

/-- Modelled from the spec: `graph.iter_graph` (not part of the
excerpted source) "traverses every object reachable from `root`
through ownership edges (a graph, possibly with shared sub-objects —
each object visited exactly once regardless of how many owners
reference it)".  The traversal order is the node-list order; each
reachable node occurs exactly once because `nodes` is duplicate-free
in a well-formed graph. -/
def iterGraph (g : ObjGraph) (root : Nat) : List Nat :=
  g.nodes.filter (fun n => decide (n ∈ reachList g root))

/-- An object is reachable from `root` through ownership edges. -/
def Reachable (g : ObjGraph) (root x : Nat) : Prop :=
  Relation.ReflTransGen (fun a b => b ∈ g.childMap a) root x

/-- Source translation of `_set_initializing`: iterate over the
ownership graph and set the `initializing` flag of every object that
carries call-phase state. -/
def set_initializing (g : ObjGraph) (root : Nat) (v : Bool)
    (fl : Nat → Bool) : Nat → Bool :=
  (iterGraph g root).foldl
    (fun f n => if g.isObject n then (fun y => if y = n then v else f y) else f)
    fl

/-! ### Reachability facts about the traversal -/

theorem mem_childUnion {g : ObjGraph} {x : Nat} :
    ∀ {s : List Nat}, x ∈ childUnion g s ↔ ∃ y, y ∈ s ∧ x ∈ g.childMap y := by
  intro s
  induction s with
  | nil => simp [childUnion]
  | cons a t ih =>
    rw [childUnion, List.mem_append, ih]
    constructor
    · rintro (h | ⟨y, hy, hx⟩)
      · exact ⟨a, List.mem_cons_self a t, h⟩
      · exact ⟨y, List.mem_cons_of_mem a hy, hx⟩
    · rintro ⟨y, hy, hx⟩
      rcases List.mem_cons.mp hy with h | h
      · exact Or.inl (h ▸ hx)
      · exact Or.inr ⟨y, h, hx⟩

theorem mem_expand {g : ObjGraph} {s : List Nat} {x : Nat} :
    x ∈ expand g s ↔ x ∈ s ∨ ∃ y, y ∈ s ∧ x ∈ g.childMap y := by
  rw [expand, List.mem_dedup, List.mem_append, mem_childUnion]

theorem subset_expand (g : ObjGraph) (s : List Nat) : s ⊆ expand g s :=
  fun _ hx => mem_expand.mpr (Or.inl hx)

theorem expand_congr {g : ObjGraph} {s t : List Nat}
    (h : ∀ x, x ∈ s ↔ x ∈ t) (x : Nat) :
    x ∈ expand g s ↔ x ∈ expand g t := by
  rw [mem_expand, mem_expand]
  constructor
  · rintro (hx | ⟨y, hy, hc⟩)
    · exact Or.inl ((h x).mp hx)
    · exact Or.inr ⟨y, (h y).mp hy, hc⟩
  · rintro (hx | ⟨y, hy, hc⟩)
    · exact Or.inl ((h x).mpr hx)
    · exact Or.inr ⟨y, (h y).mpr hy, hc⟩

theorem iterate_subset_succ (g : ObjGraph) (s : List Nat) (k : Nat) :
    (expand g)^[k] s ⊆ (expand g)^[k + 1] s := by
  rw [Function.iterate_succ_apply']
  exact subset_expand g _

theorem iterate_subset_le (g : ObjGraph) (s : List Nat) {k m : Nat}
    (h : k ≤ m) : (expand g)^[k] s ⊆ (expand g)^[m] s := by
  induction m with
  | zero =>
    have : k = 0 := Nat.le_zero.mp h
    subst this; exact fun x hx => hx
  | succ m ih =>
    rcases Nat.lt_or_ge k (m + 1) with hlt | hge
    · exact fun x hx =>
        iterate_subset_succ g s m (ih (Nat.lt_succ_iff.mp hlt) hx)
    · have : k = m + 1 := Nat.le_antisymm h hge
      subst this; exact fun x hx => hx

theorem iterate_subset_nodes (g : ObjGraph) (root : Nat)
    (hroot : root ∈ g.nodes)
    (hcl : ∀ a ∈ g.nodes, ∀ b ∈ g.childMap a, b ∈ g.nodes) :
    ∀ k, (expand g)^[k] [root] ⊆ g.nodes := by
  intro k
  induction k with
  | zero =>
    intro x hx
    rw [Function.iterate_zero_apply, List.mem_singleton] at hx
    subst hx; exact hroot
  | succ k ih =>
    intro x hx
    rw [Function.iterate_succ_apply'] at hx
    rcases mem_expand.mp hx with h | ⟨y, hy, hc⟩
    · exact ih h
    · exact hcl y (ih hy) x hc

theorem dedup_length_le_of_subset {s t : List Nat} (h : s ⊆ t) :
    s.dedup.length ≤ t.dedup.length := by
  refine List.Subperm.length_le
    (List.subperm_of_subset (List.nodup_dedup s) ?_)
  intro x hx
  exact List.mem_dedup.mpr (h (List.mem_dedup.mp hx))

theorem dedup_length_lt {s t : List Nat} (hsub : s ⊆ t) (x : Nat)
    (hx : x ∈ t) (hnx : x ∉ s) : s.dedup.length < t.dedup.length := by
  have hnd : (x :: s.dedup).Nodup := by
    refine List.nodup_cons.mpr ⟨?_, List.nodup_dedup s⟩
    exact fun hmem => hnx (List.mem_dedup.mp hmem)
  have hsub2 : (x :: s.dedup) ⊆ t.dedup := by
    intro y hy
    rcases List.mem_cons.mp hy with rfl | hy
    · exact List.mem_dedup.mpr hx
    · exact List.mem_dedup.mpr (hsub (List.mem_dedup.mp hy))
  have hlen := List.Subperm.length_le (List.subperm_of_subset hnd hsub2)
  simpa using hlen

theorem exists_stable_level (g : ObjGraph) (root : Nat)
    (hroot : root ∈ g.nodes)
    (hcl : ∀ a ∈ g.nodes, ∀ b ∈ g.childMap a, b ∈ g.nodes) :
    ∃ k, k < g.nodes.length ∧
      ∀ x, x ∈ (expand g)^[k + 1] [root] ↔ x ∈ (expand g)^[k] [root] := by
  by_contra hcon
  push_neg at hcon
  have hstrict : ∀ k, k < g.nodes.length →
      ((expand g)^[k] [root]).dedup.length <
        ((expand g)^[k + 1] [root]).dedup.length := by
    intro k hk
    obtain ⟨x, hx⟩ := hcon k hk
    have hsub := iterate_subset_succ g [root] k
    rcases hx with ⟨h2, h1⟩ | ⟨h2, h1⟩
    · exact dedup_length_lt hsub x h2 h1
    · exact absurd (hsub h1) h2
  have hgrow : ∀ k, k ≤ g.nodes.length →
      k + 1 ≤ ((expand g)^[k] [root]).dedup.length := by
    intro k
    induction k with
    | zero =>
      intro _
      have hmem : root ∈ ((expand g)^[0] [root]).dedup := by
        rw [Function.iterate_zero_apply]
        exact List.mem_dedup.mpr (List.mem_singleton_self root)
      have := List.length_pos_of_mem hmem
      omega
    | succ k ih =>
      intro hk
      have hle := ih (Nat.le_of_succ_le hk)
      have hlt := hstrict k (Nat.lt_of_succ_le hk)
      omega
  have hbound :
      ((expand g)^[g.nodes.length] [root]).dedup.length ≤ g.nodes.length := by
    have hsubn := iterate_subset_nodes g root hroot hcl g.nodes.length
    have h1 := dedup_length_le_of_subset hsubn
    have h2 := List.Sublist.length_le (List.dedup_sublist g.nodes)
    omega
  have := hgrow g.nodes.length (Nat.le_refl _)
  omega

theorem stable_propagate (g : ObjGraph) (root : Nat) (k : Nat)
    (hstab : ∀ x, x ∈ (expand g)^[k + 1] [root] ↔ x ∈ (expand g)^[k] [root]) :
    ∀ m, ∀ x, x ∈ (expand g)^[k + m] [root] ↔ x ∈ (expand g)^[k] [root] := by
  intro m
  induction m with
  | zero => intro x; rw [Nat.add_zero]
  | succ m ih =>
    intro x
    have e1 : k + (m + 1) = (k + m) + 1 := rfl
    rw [e1, Function.iterate_succ_apply']
    have h2 := hstab x
    rw [Function.iterate_succ_apply'] at h2
    exact (expand_congr ih x).trans h2

theorem reachable_mem_reachList (g : ObjGraph) (root x : Nat)
    (hroot : root ∈ g.nodes)
    (hcl : ∀ a ∈ g.nodes, ∀ b ∈ g.childMap a, b ∈ g.nodes)
    (hx : Reachable g root x) : x ∈ reachList g root := by
  obtain ⟨k, hkN, hstab⟩ := exists_stable_level g root hroot hcl
  have hSN : ∀ y, y ∈ (expand g)^[g.nodes.length] [root] ↔
      y ∈ (expand g)^[k] [root] := by
    intro y
    have h := stable_propagate g root k hstab (g.nodes.length - k) y
    rwa [Nat.add_sub_cancel' (Nat.le_of_lt hkN)] at h
  have hclosed : ∀ y, y ∈ reachList g root →
      ∀ z, z ∈ g.childMap y → z ∈ reachList g root := by
    intro y hy z hz
    rw [reachList] at hy ⊢
    rw [hSN y] at hy
    have hzmem : z ∈ expand g ((expand g)^[k] [root]) :=
      mem_expand.mpr (Or.inr ⟨y, hy, hz⟩)
    rw [← Function.iterate_succ_apply' (expand g) k [root]] at hzmem
    rw [hSN z]
    exact (hstab z).mp hzmem
  have hrootmem : root ∈ reachList g root := by
    rw [reachList]
    have h0 : root ∈ (expand g)^[0] [root] := by
      rw [Function.iterate_zero_apply]
      exact List.mem_singleton_self root
    exact iterate_subset_le g [root] (Nat.zero_le _) h0
  induction hx with
  | refl => exact hrootmem
  | tail hab hbc ih => exact hclosed _ ih _ hbc

theorem reachable_mem_iterGraph (g : ObjGraph) (root x : Nat)
    (hroot : root ∈ g.nodes)
    (hcl : ∀ a ∈ g.nodes, ∀ b ∈ g.childMap a, b ∈ g.nodes)
    (hx : Reachable g root x) : x ∈ iterGraph g root := by
  have hmem := reachable_mem_reachList g root x hroot hcl hx
  rw [iterGraph, List.mem_filter]
  exact ⟨iterate_subset_nodes g root hroot hcl _ hmem, decide_eq_true hmem⟩

theorem iterGraph_nodup (g : ObjGraph) (root : Nat) (h : g.nodes.Nodup) :
    (iterGraph g root).Nodup := List.Nodup.filter _ h

theorem count_iterGraph_eq_one (g : ObjGraph) (root x : Nat)
    (hnd : g.nodes.Nodup) (hroot : root ∈ g.nodes)
    (hcl : ∀ a ∈ g.nodes, ∀ b ∈ g.childMap a, b ∈ g.nodes)
    (hx : Reachable g root x) : (iterGraph g root).count x = 1 :=
  List.count_eq_one_of_mem (iterGraph_nodup g root hnd)
    (reachable_mem_iterGraph g root x hroot hcl hx)

/-! ### The flag updates performed by the traversal -/

theorem foldl_setflag_preserve (g : ObjGraph) (v : Bool) (x : Nat) :
    ∀ (l : List Nat) (f : Nat → Bool), f x = v →
      (l.foldl
        (fun f n => if g.isObject n then (fun y => if y = n then v else f y) else f)
        f) x = v := by
  intro l
  induction l with
  | nil => intro f h; exact h
  | cons a t ih =>
    intro f h
    rw [List.foldl_cons]
    apply ih
    by_cases ha : g.isObject a
    · rw [if_pos ha]
      by_cases hx : x = a
      · rw [if_pos hx]
      · rw [if_neg hx]; exact h
    · rw [if_neg ha]; exact h

theorem foldl_setflag_mem (g : ObjGraph) (v : Bool) (x : Nat)
    (hobj : g.isObject x = true) :
    ∀ (l : List Nat) (f : Nat → Bool), x ∈ l →
      (l.foldl
        (fun f n => if g.isObject n then (fun y => if y = n then v else f y) else f)
        f) x = v := by
  intro l
  induction l with
  | nil => intro f h; simp at h
  | cons a t ih =>
    intro f hmem
    rw [List.foldl_cons]
    rcases List.mem_cons.mp hmem with rfl | hx
    · apply foldl_setflag_preserve
      rw [if_pos hobj]
      simp
    · exact ih _ hx

theorem set_initializing_flag (g : ObjGraph) (root : Nat) (v : Bool)
    (fl : Nat → Bool) (hroot : root ∈ g.nodes)
    (hcl : ∀ a ∈ g.nodes, ∀ b ∈ g.childMap a, b ∈ g.nodes)
    (x : Nat) (hx : Reachable g root x) (hobj : g.isObject x = true) :
    set_initializing g root v fl x = v := by
  rw [set_initializing]
  exact foldl_setflag_mem g v x hobj _ fl
    (reachable_mem_iterGraph g root x hroot hcl hx)

/-- Source translation of `lazy_init`: set all flags true, run the
wrapped call, reset all flags false in a guaranteed-cleanup block
(also when the call raises), and return `fn` itself (`fnId`) — the
wrapped call's own result is discarded (`_ = fn(*args, **kwargs)`).
The wrapped call is a function of the flag state (it branches on
`initializing`) that may raise (`Except.error`). -/
def lazy_init (g : ObjGraph) (root : Nat) (fnId : Nat) (fl : Nat → Bool)
    (call : (Nat → Bool) → Except String Nat) :
    (Nat → Bool) × Except String Nat :=
  let fl1 := set_initializing g root true fl
  match call fl1 with
  | Except.ok _ => (set_initializing g root false fl1, Except.ok fnId)
  | Except.error e => (set_initializing g root false fl1, Except.error e)

/-! ## Pseudo-random stream bundles and the ToNNX adapter

A stream bundle (`nnx.Rngs`, external to the excerpted source) is
modelled as a named mapping from stream name to the stream's
underlying key.  `rawValue` models reading `stream.key.raw_value`
(the key itself); `drawStream` models invoking the stream once
(`stream()`), which derives a value from the key. -/

abbrev Rngs := List (String × Nat)

abbrev RngMap := List (String × Nat)

def rawValue (k : Nat) : Nat := k

def drawStream (k : Nat) : Nat := k

/-- Modelled from the spec: truthiness of an `nnx.Rngs` bundle (the
class is external to the excerpted source); a missing bundle and an
empty bundle are falsy, mirroring `if not rngs`. -/
def rngsFalsy : Option Rngs → Bool
  | none => true
  | some r => r.isEmpty

/-- Source translation of `if not rngs: rngs = self.rngs`: a falsy
per-call bundle is replaced by the construction-time bundle. -/
def resolveRngs (callRngs stored : Option Rngs) : Option Rngs :=
  if rngsFalsy callRngs then stored else callRngs

/-- The raw-key view of a bundle:
`{name: stream.key.raw_value for name, stream in rngs.items()}`. -/
def rawMap (r : Rngs) : RngMap :=
  r.map (fun p => (p.1, rawValue p.2))

/-- Source translation of the `_rngs` computation on the
initialization path of `ToNNX.__call__`, including the compatibility
rule that renames stream `"default"` to `"params"` when `"params"` is
absent and `"default"` present (dict `pop` + insert). -/
def mkInitRngs : Option Rngs → RngMap
  | none => []
  | some r =>
    let m := rawMap r
    match alookup paramsKey m, alookup defaultKey m with
    | none, some d => (m.filter (fun p => decide (p.1 ≠ defaultKey))) ++ [(paramsKey, d)]
    | _, _ => m

/-- Source translation of the `_rngs` computation on the
already-initialized path: `{name: stream() for name, stream in
rngs.items()}` — each stream invoked once. -/
def mkApplyRngs : Option Rngs → RngMap
  | none => []
  | some r => r.map (fun p => (p.1, drawStream p.2))

/-- A typed variable leaf: the Variable category together with the
stored value. -/
abbrev VarType := String

/-- Modelled from the spec: `variableslib.variable_type` maps a
collection name to the typed variable category; categories are in
bijection with collection names, so the category is identified by its
name. -/
def variable_type (colName : String) : VarType := colName

/-- Modelled from the spec: `variableslib.variable_type_name`, the
inverse of `variable_type`. -/
def variable_type_name (t : VarType) : String := t

/-- A raw variable tree of one collection: leaf name to value. -/
abbrev VarTree := List (String × Int)

/-- A typed variable tree: leaf name to (category, value). -/
abbrev TypedTree := List (String × (VarType × Int))

/-- Output of the wrapped Linen module: either a plain output, or the
`(output, updates)` pair returned when a mutable-collection apply was
requested. -/
inductive MOut where
  | plain (v : Int)
  | withUpdates (v : Int) (upd : List (String × VarTree))

/-- Re-type every leaf of a raw tree by the collection it came from:
`jax.tree.map(variable_type(collection), value)` (and the
`nn_var_to_nnx_state` retyping on the init path, where the top-level
dict key is the collection name). -/
def retypeTree (col : String) (tree : VarTree) : TypedTree :=
  tree.map (fun kv => (kv.1, (variable_type col, kv.2)))

/-- The ToNNX wrapper's own state: the construction-time bundle
(`self.rngs`), the recorded Linen collection names
(`self.linen_collections`), the per-collection attribute storage, and
the Initialization-Phase Toggle flag of the wrapper object. -/
structure ToNNX where
  rngs : Option Rngs
  linen_collections : List String
  attrs : List (String × TypedTree)
  initializing : Bool

/-- `getattr(self, col)` for a recorded collection. -/
def getAttrD (m : ToNNX) (col : String) : TypedTree :=
  (alookup col m.attrs).getD []

/-- Strip the category back off: `jax.tree.map(lambda v: v.value, ...)`. -/
def stripVals (t : TypedTree) : VarTree :=
  t.map (fun kv => (kv.1, kv.2.2))

/-- The variable tree handed to the pure apply call, rebuilt from the
stored attributes of every recorded collection. -/
def collectVars (m : ToNNX) : List (String × VarTree) :=
  m.linen_collections.map (fun col => (col, stripVals (getAttrD m col)))

/-- Write the updates of a mutable-collection apply back into the
attribute storage, re-typed to the matching Variable category. -/
def writeUpdates (attrs : List (String × TypedTree))
    (upd : List (String × VarTree)) : List (String × TypedTree) :=
  upd.foldl (fun a p => aupdate a p.1 (retypeTree p.1 p.2)) attrs

/-- The common tail of `ToNNX.__call__`: when `mutable` was passed,
split the result into `(output, updates)`, write every updated
collection back, and return the output component alone. -/
def finishMutable (mutableArg : Bool) (out : MOut) (m : ToNNX) :
    MOut × ToNNX :=
  if mutableArg then
    match out with
    | MOut.withUpdates v upd =>
        (MOut.plain v, { m with attrs := writeUpdates m.attrs upd })
    | MOut.plain v => (MOut.plain v, m)
  else (out, m)

/-- Source translation of `ToNNX.__call__`.  The wrapped Linen
module's `init_with_output` and `apply` are parameters (the module
itself is an external collaborator): `initWithOutput` receives the
rng mapping and returns `(out, variables)`; `applyFn` receives the
rebuilt variable tree and the per-call rng mapping.  `mutableArg`
models `kwargs.get('mutable', False) != False`. -/
def toNNXCall (m : ToNNX)
    (initWithOutput : RngMap → MOut × List (String × VarTree))
    (applyFn : List (String × VarTree) → RngMap → MOut)
    (callRngs : Option Rngs) (mutableArg : Bool) : MOut × ToNNX :=
  let rngs := resolveRngs callRngs m.rngs
  if m.initializing then
    let r := mkInitRngs rngs
    let ov := initWithOutput r
    let attrs1 := ov.2.foldl (fun a p => aupdate a p.1 (retypeTree p.1 p.2)) m.attrs
    let cols1 := ov.2.foldl
      (fun cs p => if p.1 ∈ cs then cs else cs ++ [p.1]) m.linen_collections
    finishMutable mutableArg ov.1
      { m with attrs := attrs1, linen_collections := cols1 }
  else
    let varTree := collectVars m
    let r := mkApplyRngs rngs
    finishMutable mutableArg (applyFn varTree r) m

theorem alookup_writeUpdates_not_mem {attrs : List (String × TypedTree)}
    {upd : List (String × VarTree)} {col : String} (h : col ∉ akeys upd) :
    alookup col (writeUpdates attrs upd) = alookup col attrs := by
  induction upd generalizing attrs with
  | nil => rfl
  | cons p ps ih =>
    rw [akeys_cons, List.mem_cons] at h
    push_neg at h
    have hstep : writeUpdates attrs (p :: ps) =
        writeUpdates (aupdate attrs p.1 (retypeTree p.1 p.2)) ps := rfl
    rw [hstep, ih h.2, aupdate_alookup_ne _ _ _ _ h.1]

theorem alookup_writeUpdates_mem (attrs : List (String × TypedTree)) :
    ∀ (upd : List (String × VarTree)), (akeys upd).Nodup →
      ∀ col tree, (col, tree) ∈ upd →
        alookup col (writeUpdates attrs upd) = some (retypeTree col tree) := by
  intro upd
  induction upd generalizing attrs with
  | nil => intro _ col tree h; simp at h
  | cons p ps ih =>
    obtain ⟨c, t⟩ := p
    intro hnd col tree hmem
    rw [akeys_cons] at hnd
    have hnd2 := List.nodup_cons.mp hnd
    have hstep : writeUpdates attrs ((c, t) :: ps) =
        writeUpdates (aupdate attrs c (retypeTree c t)) ps := rfl
    rw [hstep]
    rcases List.mem_cons.mp hmem with heq | hmem2
    · obtain ⟨hcol, htree⟩ := Prod.mk.injEq .. ▸ heq
      subst hcol; subst htree
      rw [alookup_writeUpdates_not_mem hnd2.1, aupdate_alookup_self]
    · exact ih _ hnd2.2 col tree hmem2

/-! ## The Graph/State Model and the Functional wrapper

Modelled from the spec: the Graph/State collaborator represents a
stateful module as a pair of a static structural descriptor (graph
definition) and a dynamic typed state mapping, with
`split(module) -> (graph_def, state)` and
`merge(graph_def, state) -> module`. -/

structure NModule where
  gdef : Nat
  state : TypedTree

/-- Modelled from the spec: `nnx.split` on a module with no filters. -/
def nnxSplit (m : NModule) : Nat × TypedTree := (m.gdef, m.state)

/-- Modelled from the spec: `nnx.merge` of a graph definition and a
combined state. -/
def nnxMerge (g : Nat) (s : TypedTree) : NModule := ⟨g, s⟩

/-- The bridge's error taxonomy (spec section 7). -/
inductive BridgeErr where
  | NotInitializedError
  | MissingGraphDefError
deriving DecidableEq

/-- `State.merge`-style combination of several states into one
combined mapping. -/
def mergeStates (states : List TypedTree) : TypedTree :=
  states.foldl (fun a b => a ++ b) []

/-- Source translation of the `Functional` dataclass: module
constructor (class with construction args closed over) and the
retained graph definition, `None` until `init` ran. -/
structure FunctionalH where
  ctor : Option Rngs → NModule
  graphdef : Option Nat

/-- Source translation of `functional(cls)`: a constructor returning a
handle with no graph definition yet. -/
def functional (ctor : Option Rngs → NModule) : FunctionalH := ⟨ctor, none⟩

/-- Source translation of `Functional.init`: construct the module
(injecting `rngs` only if supplied — folded into the `Option`
argument), split it, retain the graph definition, return the state. -/
def FunctionalH.init (f : FunctionalH) (rngs : Option Rngs) :
    FunctionalH × TypedTree :=
  let m := f.ctor rngs
  let gs := nnxSplit m
  ({ f with graphdef := some gs.1 }, gs.2)

/-- Source translation of `Functional.apply`: requires `init` to have
run (the source asserts `self.graphdef is not None`; the spec names
this failure `NotInitializedError`), then `graphdef.apply(*states)` —
modelled from the spec as merging the retained graph definition with
the given states and invoking the reconstructed module (`run`). -/
def FunctionalH.apply (f : FunctionalH) (run : NModule → Int)
    (states : List TypedTree) : Except BridgeErr Int :=
  match f.graphdef with
  | none => Except.error BridgeErr.NotInitializedError
  | some g => Except.ok (run (nnxMerge g (mergeStates states)))

/-! ## The variable-typing utility and the ToLinen adapter -/

/-- Modelled from the spec: `variableslib.sort_variable_types`, the
canonical total order over variable categories (stable across calls),
realised as sorting the category names. -/
def sort_variable_types (ts : List VarType) : List VarType :=
  List.insertionSort (fun a b => a ≤ b) ts

/-- The set of variable categories occurring in a module's state
(`set(jax.tree.leaves(...))` — an unordered set, so adapters receive
it as an arbitrarily ordered enumeration). -/
def typesOf (m : NModule) : List VarType :=
  (m.state.map (fun kv => kv.2.1)).dedup

/-- `nnx.split(module, *types)`: the part of the state belonging to
one variable category. -/
def stateByType (m : NModule) (t : VarType) : List (String × Int) :=
  m.state.filterMap
    (fun kv => if kv.2.1 = t then some (kv.1, kv.2.2) else none)

/-- A Linen variable leaf: either an embedded graph definition (the
`'nnx'` collection) or a typed variable. -/
inductive LVal where
  | gdefV (g : Nat)
  | varV (t : VarType) (v : Int)
deriving DecidableEq

/-- The Linen variable store of a `ToLinen` instance: collection name
to (variable name to value). -/
abbrev LinenVars := List (String × List (String × LVal))

/-- Modelled from the spec: Linen's `Module.put_variable`. -/
def put_variable (vars : LinenVars) (col k : String) (v : LVal) :
    LinenVars :=
  aupdate vars col (aupdate ((alookup col vars).getD []) k v)

/-- Modelled from the spec: Linen's `Module.get_variable`, `None` when
the collection or the name is absent. -/
def get_variable (vars : LinenVars) (col k : String) : Option LVal :=
  match alookup col vars with
  | none => none
  | some tree => alookup k tree

/-- The sequence of `put_variable` calls performed by one run of
`ToLinen.update_variables`: the graph definition into the `'nnx'`
collection when writable, then, for each variable category in
canonical sorted order whose collection is writable, every leaf of
that category's state.  `order` is the arbitrary enumeration order of
the category set handed over by `set(...)`. -/
def capturePuts (isMut : String → Bool) (order : List VarType)
    (m : NModule) : List (String × String × LVal) :=
  (if isMut nnxKey then [(nnxKey, graphdefKey, LVal.gdefV m.gdef)] else []) ++
  (sort_variable_types order).foldr
    (fun t acc =>
      (if isMut (variable_type_name t) then
        (stateByType m t).map
          (fun kv => (variable_type_name t, kv.1, LVal.varV t kv.2))
      else []) ++ acc)
    []

/-- Replay a sequence of puts on a variable store. -/
def applyPuts (vars : LinenVars) (puts : List (String × String × LVal)) :
    LinenVars :=
  puts.foldl (fun vs p => put_variable vs p.1 p.2.1 p.2.2) vars

/-- Source translation of `ToLinen.update_variables`: capture the
module's graph definition and per-category state and store them into
the writable Linen collections. -/
def update_variables (isMut : String → Bool) (order : List VarType)
    (vars : LinenVars) (m : NModule) : LinenVars :=
  applyPuts vars (capturePuts isMut order m)

/-- The typed entries of one stored Linen collection
(`State(state)` on its raw mapping). -/
def stateEntries (tree : List (String × LVal)) : TypedTree :=
  tree.filterMap (fun p =>
    match p.2 with
    | LVal.varV t v => some (p.1, (t, v))
    | LVal.gdefV _ => none)

/-- Source translation of the state assembly on the apply path of
`ToLinen.__call__`: every stored collection except `'nnx'` is turned
into a `State` and all of them merged into one combined state; with no
such collection, the empty state. -/
def mergedNonNnxState (vars : LinenVars) : TypedTree :=
  let states := (vars.filter (fun p => decide (p.1 ≠ nnxKey))).map
    (fun p => stateEntries p.2)
  if states.isEmpty then [] else states.foldl (fun a b => a ++ b) []

/-- Source translation of `ToLinen.__call__`.  External collaborators
are parameters: `ctor` is the NNX class with construction arguments
(`rngs` injected unless `skip_rng`), `linenRngs` the streams sourced
from the enclosing Linen context (`linen_rngs_dict`), `runModule` the
module invocation (returning output and the possibly mutated module),
`reseedFn` the `nnx.reseed` re-association of the module's streams. -/
def toLinenCall (isMut : String → Bool) (initializing : Bool)
    (ctor : Option Rngs → NModule) (skipRng : Bool) (linenRngs : Rngs)
    (runModule : NModule → Int × NModule)
    (reseedFn : NModule → Rngs → NModule)
    (order : List VarType) (vars : LinenVars) :
    Except BridgeErr (Int × LinenVars) :=
  if initializing then
    let module := ctor (if skipRng then none else some linenRngs)
    let vars1 := update_variables isMut order vars module
    let om := runModule module
    Except.ok (om.1, vars1)
  else
    match get_variable vars nnxKey graphdefKey with
    | some (LVal.gdefV g) =>
      let module := nnxMerge g (mergedNonNnxState vars)
      let module1 := reseedFn module linenRngs
      let om := runModule module1
      let vars2 := update_variables isMut order vars om.2
      Except.ok (om.1, vars2)
    | _ => Except.error BridgeErr.MissingGraphDefError

/-! ## Further helper lemmas -/

theorem alookup_eq_none_iff {α : Type} {k : String} :
    ∀ {l : List (String × α)}, alookup k l = none ↔ k ∉ akeys l := by
  intro l
  induction l with
  | nil => simp [alookup, akeys]
  | cons p ps ih =>
    rw [alookup, akeys_cons]
    by_cases hp : p.1 = k
    · rw [if_pos hp]
      simp [hp]
    · rw [if_neg hp, List.mem_cons, ih]
      constructor
      · rintro h (hh | hh)
        · exact hp hh.symm
        · exact h hh
      · intro h hh
        exact h (Or.inr hh)

theorem akeys_filter_subset {α : Type} (p : String × α → Bool)
    (l : List (String × α)) : akeys (l.filter p) ⊆ akeys l := by
  intro x hx
  rw [akeys] at hx ⊢
  obtain ⟨q, hq, rfl⟩ := List.mem_map.mp hx
  exact List.mem_map.mpr ⟨q, List.mem_of_mem_filter hq, rfl⟩

theorem lazy_init_fst (g : ObjGraph) (root fnId : Nat) (fl : Nat → Bool)
    (call : (Nat → Bool) → Except String Nat) :
    (lazy_init g root fnId fl call).1 =
      set_initializing g root false (set_initializing g root true fl) := by
  simp only [lazy_init]
  cases call (set_initializing g root true fl) <;> rfl

theorem finishMutable_fst (mutableArg : Bool) (out : MOut) (m m' : ToNNX) :
    (finishMutable mutableArg out m).1 = (finishMutable mutableArg out m').1 := by
  cases mutableArg
  · rfl
  · cases out <;> rfl

theorem finishMutable_attrs (mutableArg : Bool) (out : MOut) (m m' : ToNNX)
    (h : m.attrs = m'.attrs) :
    (finishMutable mutableArg out m).2.attrs =
      (finishMutable mutableArg out m').2.attrs := by
  cases mutableArg
  · exact h
  · cases out with
    | plain v => exact h
    | withUpdates v upd =>
      exact congrArg (fun a => writeUpdates a upd) h

theorem sort_variable_types_perm_eq {o₁ o₂ : List VarType} (h : o₁.Perm o₂) :
    sort_variable_types o₁ = sort_variable_types o₂ := by
  have hs1 : List.Sorted (fun a b : VarType => a ≤ b) (sort_variable_types o₁) :=
    List.sorted_insertionSort (fun a b : VarType => a ≤ b) o₁
  have hs2 : List.Sorted (fun a b : VarType => a ≤ b) (sort_variable_types o₂) :=
    List.sorted_insertionSort (fun a b : VarType => a ≤ b) o₂
  have hp : (sort_variable_types o₁).Perm (sort_variable_types o₂) :=
    ((List.perm_insertionSort (fun a b : VarType => a ≤ b) o₁).trans h).trans
      (List.perm_insertionSort (fun a b : VarType => a ≤ b) o₂).symm
  exact List.eq_of_perm_of_sorted hp hs1 hs2

def concatAll {β : Type} : List (List β) → List β
  | [] => []
  | a :: t => a ++ concatAll t

theorem foldl_append_eq_concatAll {β : Type} :
    ∀ (l : List (List β)) (acc : List β),
      l.foldl (fun a b => a ++ b) acc = acc ++ concatAll l := by
  intro l
  induction l with
  | nil => intro acc; simp [concatAll]
  | cons a t ih =>
    intro acc
    rw [List.foldl_cons, ih, concatAll, List.append_assoc]

theorem mem_concatAll {β : Type} {x : β} :
    ∀ {l : List (List β)}, x ∈ concatAll l ↔ ∃ s, s ∈ l ∧ x ∈ s := by
  intro l
  induction l with
  | nil => simp [concatAll]
  | cons a t ih =>
    rw [concatAll, List.mem_append, ih]
    constructor
    · rintro (h | ⟨s, hs, hx⟩)
      · exact ⟨a, List.mem_cons_self a t, h⟩
      · exact ⟨s, List.mem_cons_of_mem a hs, hx⟩
    · rintro ⟨s, hs, hx⟩
      rcases List.mem_cons.mp hs with rfl | hs
      · exact Or.inl hx
      · exact Or.inr ⟨s, hs, hx⟩

theorem mergedNonNnxState_eq_concatAll (vars : LinenVars) :
    mergedNonNnxState vars =
      concatAll ((vars.filter (fun p => decide (p.1 ≠ nnxKey))).map
        (fun p => stateEntries p.2)) := by
  rw [mergedNonNnxState]
  cases hl : (vars.filter (fun p => decide (p.1 ≠ nnxKey))).map
      (fun p => stateEntries p.2) with
  | nil => rfl
  | cons a t =>
    have hne : (a :: t).isEmpty = false := rfl
    simp only [hne, Bool.false_eq_true, if_false]
    rw [foldl_append_eq_concatAll, List.nil_append]

/-! ## Concrete instances used by witnesses and counterexamples -/

/-- A concrete ownership graph with a shared sub-object: node 3 is
referenced by the two distinct parents 1 and 2. -/
def gEx : ObjGraph where
  nodes := [0, 1, 2, 3]
  childMap := fun n =>
    if n = 0 then [1, 2] else if n = 1 then [3] else if n = 2 then [3] else []
  isObject := fun _ => true

def flEx : Nat → Bool := fun _ => true

def eMsg : String := "boom"

def reach3 : Reachable gEx 0 3 :=
  @Relation.ReflTransGen.tail Nat (fun a b => b ∈ gEx.childMap a) 0 1 3
    (Relation.ReflTransGen.single (by show (1 : Nat) ∈ gEx.childMap 0; decide))
    (by show (3 : Nat) ∈ gEx.childMap 1; decide)

def wKey : String := "w"

def bstatsKey : String := "batch_stats"

def meanKey : String := "mean"

def mEx : ToNNX :=
  { rngs := none, linen_collections := [], attrs := [], initializing := false }

def initFEx : RngMap → MOut × List (String × VarTree) :=
  fun _ => (MOut.plain 0, [])

def applyFnEx : List (String × VarTree) → RngMap → MOut :=
  fun _ _ => MOut.withUpdates 3 [(paramsKey, [(wKey, 5)])]

def ctorEx : Option Rngs → NModule := fun _ => NModule.mk 0 []

def runEx : NModule → Int × NModule := fun m => (0, m)

def reseedEx : NModule → Rngs → NModule := fun m _ => m

def mNEx : NModule :=
  NModule.mk 7 [(wKey, (paramsKey, 1)), (meanKey, (bstatsKey, 2))]

def varsEx : LinenVars :=
  [(nnxKey, [(graphdefKey, LVal.gdefV 7)]),
   (paramsKey, [(wKey, LVal.varV paramsKey 5)])]

/-! ## The claims -/

/-- C1: for every module passed to `lazy_init`, the initializing flag
of every reachable object that carries call-phase state is false when
`lazy_init` returns — also when the wrapped call raises, because the
reset runs on the guaranteed-cleanup path in both outcomes. -/
theorem lazy_init_resets_flags (g : ObjGraph) (root fnId : Nat)
    (fl : Nat → Bool) (call : (Nat → Bool) → Except String Nat)
    (hroot : root ∈ g.nodes)
    (hcl : ∀ a ∈ g.nodes, ∀ b ∈ g.childMap a, b ∈ g.nodes)
    (x : Nat) (hx : Reachable g root x) (hobj : g.isObject x = true) :
    (lazy_init g root fnId fl call).1 x = false := by
  rw [lazy_init_fst]
  exact set_initializing_flag g root false _ hroot hcl x hx hobj

/-- Witness for C1 at a concrete graph, with a wrapped call that
raises: the flag of the reachable object 3 is false afterwards. -/
theorem lazy_init_resets_flags_witness :
    (lazy_init gEx 0 0 flEx (fun _ => Except.error eMsg)).1 3 = false :=
  lazy_init_resets_flags gEx 0 0 flEx (fun _ => Except.error eMsg)
    (by decide) (by decide) 3 reach3 (by decide)

/-- C2 counterexample: `lazy_init` does not return the wrapped call's
value — the call returns `7` but `lazy_init` returns `fn` itself
(identity `0` here); the call's result is discarded
(`_ = fn(*args, **kwargs)` and `return fn`). -/
theorem lazy_init_return_value_cex :
    (lazy_init gEx 0 0 flEx (fun _ => Except.ok 7)).2 ≠ Except.ok 7 := by
  have h1 : (lazy_init gEx 0 0 flEx (fun _ => Except.ok 7)).2 =
      Except.ok 0 := rfl
  rw [h1]
  intro h
  injection h with h2
  exact absurd h2 (by decide)

/-- C2 amended: when the wrapped call succeeds, `lazy_init` returns
`fn` itself (the module or bound method it was given), not the
wrapped call's return value. -/
theorem lazy_init_returns_fn (g : ObjGraph) (root fnId : Nat)
    (fl : Nat → Bool) (call : (Nat → Bool) → Except String Nat) (v : Nat)
    (h : call (set_initializing g root true fl) = Except.ok v) :
    (lazy_init g root fnId fl call).2 = Except.ok fnId := by
  simp only [lazy_init]
  rw [h]

/-- Witness for the amended C2: a call that succeeds with `7`; the
returned value is the wrapped object `5`. -/
theorem lazy_init_returns_fn_witness :
    (lazy_init gEx 0 5 flEx (fun _ => Except.ok 7)).2 = Except.ok 5 :=
  lazy_init_returns_fn gEx 0 5 flEx (fun _ => Except.ok 7) 7 rfl

/-- C3: `functional(cls)(...)` yields a handle whose `apply` fails
with `NotInitializedError` before any `init`, and, after a successful
`init`, merges the retained graph definition with the supplied states
and invokes the reconstructed module. -/
theorem functional_apply_spec (ctor : Option Rngs → NModule)
    (run : NModule → Int) (states : List TypedTree) (r : Option Rngs) :
    (functional ctor).apply run states =
        Except.error BridgeErr.NotInitializedError ∧
      (((functional ctor).init r).1).apply run states =
        Except.ok (run (nnxMerge ((ctor r).gdef) (mergeStates states))) :=
  ⟨rfl, rfl⟩

/-- C4: a `ToLinen` call outside the initialization phase whose
embedding `'nnx'` collection holds no stored graph definition fails
with `MissingGraphDefError`. -/
theorem toLinen_apply_missing_graphdef (isMut : String → Bool)
    (ctor : Option Rngs → NModule) (skipRng : Bool) (linenRngs : Rngs)
    (runModule : NModule → Int × NModule)
    (reseedFn : NModule → Rngs → NModule)
    (order : List VarType) (vars : LinenVars)
    (h : get_variable vars nnxKey graphdefKey = none) :
    toLinenCall isMut false ctor skipRng linenRngs runModule reseedFn
        order vars =
      Except.error BridgeErr.MissingGraphDefError := by
  unfold toLinenCall
  rw [h]
  rfl

/-- Witness for C4: an empty variable store. -/
theorem toLinen_apply_missing_graphdef_witness :
    toLinenCall (fun _ => true) false ctorEx false [] runEx reseedEx [] [] =
      Except.error BridgeErr.MissingGraphDefError :=
  toLinen_apply_missing_graphdef (fun _ => true) ctorEx false [] runEx
    reseedEx [] [] rfl

/-- C5: when the (effective) stream bundle of a ToNNX initialization
call has a `"default"` stream and no `"params"` stream, the rng
mapping the wrapped Linen module's `init_with_output` receives holds
that stream's underlying key value under `"params"` and has no
`"default"` entry; with a `"params"` stream already present, no
renaming occurs.  The third conjunct ties the mapping to the call:
the initializing branch hands exactly `mkInitRngs` of the effective
bundle to the wrapped init. -/
theorem toNNX_default_to_params (r : Rngs) :
    (∀ k : Nat, alookup defaultKey (rawMap r) = some k →
        alookup paramsKey (rawMap r) = none →
        alookup paramsKey (mkInitRngs (some r)) = some k ∧
          alookup defaultKey (mkInitRngs (some r)) = none) ∧
    (∀ k' : Nat, alookup paramsKey (rawMap r) = some k' →
        mkInitRngs (some r) = rawMap r) ∧
    (∀ (m : ToNNX) (f : RngMap → MOut × List (String × VarTree))
        (applyFn : List (String × VarTree) → RngMap → MOut),
      m.initializing = true → m.rngs = some r →
      (toNNXCall m f applyFn none false).1 = (f (mkInitRngs (some r))).1) := by
  refine ⟨?_, ?_, ?_⟩
  · intro k hd hp
    have hm : mkInitRngs (some r) =
        ((rawMap r).filter (fun p => decide (p.1 ≠ defaultKey))) ++
          [(paramsKey, k)] := by
      simp only [mkInitRngs]
      rw [hp, hd]
    have hpn : paramsKey ∉
        akeys ((rawMap r).filter (fun p => decide (p.1 ≠ defaultKey))) :=
      fun hmem => (alookup_eq_none_iff.mp hp) (akeys_filter_subset _ _ hmem)
    have hdn : defaultKey ∉
        akeys ((rawMap r).filter (fun p => decide (p.1 ≠ defaultKey))) := by
      intro hmem
      rw [akeys] at hmem
      obtain ⟨q, hq, hq1⟩ := List.mem_map.mp hmem
      exact (of_decide_eq_true ((List.mem_filter.mp hq).2)) hq1
    constructor
    · rw [hm, alookup_append_right _ _ _ (alookup_eq_none_of_not_mem hpn),
        alookup, if_pos rfl]
    · rw [hm, alookup_append_right _ _ _ (alookup_eq_none_of_not_mem hdn)]
      refine alookup_eq_none_of_not_mem ?_
      rw [akeys_cons, List.mem_cons]
      rintro (hh | hh)
      · exact absurd hh (show ¬ defaultKey = paramsKey by decide)
      · simp [akeys] at hh
  · intro k' hp'
    simp only [mkInitRngs]
    rw [hp']
  · intro m f applyFn hinit hr
    have hres : resolveRngs none m.rngs = some r := by
      rw [resolveRngs, rngsFalsy, if_pos rfl]
      exact hr
    simp [toNNXCall, hinit, hres, finishMutable]

/-- Witness for C5: a bundle holding only a `"default"` stream with
key 42; the init mapping holds 42 under `"params"` and nothing under
`"default"`. -/
theorem toNNX_default_to_params_witness :
    alookup paramsKey (mkInitRngs (some [(defaultKey, 42)])) = some 42 ∧
      alookup defaultKey (mkInitRngs (some [(defaultKey, 42)])) = none :=
  (toNNX_default_to_params [(defaultKey, 42)]).1 42 (by decide) (by decide)

/-- C6: a ToNNX call on the apply path with a mutable-collection
request stores, for every collection in the returned updates, the
update re-typed to the matching Variable category (not the pre-call
value), and returns the output component alone. -/
theorem toNNX_mutable_writeback (m : ToNNX)
    (initF : RngMap → MOut × List (String × VarTree))
    (applyFn : List (String × VarTree) → RngMap → MOut)
    (callRngs : Option Rngs) (v : Int) (upd : List (String × VarTree))
    (hinit : m.initializing = false)
    (happly : applyFn (collectVars m)
        (mkApplyRngs (resolveRngs callRngs m.rngs)) =
      MOut.withUpdates v upd)
    (hnd : (akeys upd).Nodup) (col : String) (tree : VarTree)
    (hmem : (col, tree) ∈ upd) :
    (toNNXCall m initF applyFn callRngs true).1 = MOut.plain v ∧
      alookup col (toNNXCall m initF applyFn callRngs true).2.attrs =
        some (retypeTree col tree) := by
  have hcall : toNNXCall m initF applyFn callRngs true =
      (MOut.plain v, { m with attrs := writeUpdates m.attrs upd }) := by
    simp [toNNXCall, hinit, happly, finishMutable]
  rw [hcall]
  exact ⟨rfl, alookup_writeUpdates_mem m.attrs upd hnd col tree hmem⟩

/-- Witness for C6: an apply-path call whose update carries the
`"params"` collection; afterwards the stored attribute equals the
re-typed update and the result is the plain output. -/
theorem toNNX_mutable_writeback_witness :
    (toNNXCall mEx initFEx applyFnEx none true).1 = MOut.plain 3 ∧
      alookup paramsKey (toNNXCall mEx initFEx applyFnEx none true).2.attrs =
        some (retypeTree paramsKey [(wKey, 5)]) :=
  toNNX_mutable_writeback mEx initFEx applyFnEx none 3
    [(paramsKey, [(wKey, 5)])] rfl rfl (by decide) paramsKey [(wKey, 5)]
    (by decide)

/-- C7: `update_variables` is deterministic across runs on an
unmodified module: the captured puts (collection names and per-name
stored values) and the resulting variable store do not depend on the
enumeration order of the variable-type set, because the types are
sorted canonically before iteration.  Since the capture reads only
the module (never the variable store), two successive runs perform
identical puts. -/
theorem update_variables_stable (isMut : String → Bool) (vars : LinenVars)
    (m : NModule) (o₁ o₂ : List VarType) (h : o₁.Perm o₂) :
    capturePuts isMut o₁ m = capturePuts isMut o₂ m ∧
      update_variables isMut o₁ vars m = update_variables isMut o₂ vars m := by
  have hs : sort_variable_types o₁ = sort_variable_types o₂ :=
    sort_variable_types_perm_eq h
  constructor
  · simp only [capturePuts, hs]
  · simp only [update_variables, capturePuts, hs]

/-- Witness for C7: the two enumeration orders of the type set of a
concrete module with a parameter and a batch statistic. -/
theorem update_variables_stable_witness :
    capturePuts (fun _ => true) [paramsKey, bstatsKey] mNEx =
        capturePuts (fun _ => true) [bstatsKey, paramsKey] mNEx ∧
      update_variables (fun _ => true) [paramsKey, bstatsKey] [] mNEx =
        update_variables (fun _ => true) [bstatsKey, paramsKey] [] mNEx :=
  update_variables_stable (fun _ => true) [] mNEx [paramsKey, bstatsKey]
    [bstatsKey, paramsKey] (by decide)

/-- C8: `set_initializing` on an ownership graph with a sub-object
shared by two distinct parents visits that sub-object exactly once
(its identity occurs once in the traversal, regardless of reference
multiplicity), and every object reachable from the root that carries
call-phase state ends with its flag equal to the supplied value —
since objects are keyed by identity, both parent references observe
that same updated flag value on the shared sub-object. -/
theorem set_initializing_shared_once (g : ObjGraph) (root : Nat)
    (v : Bool) (fl : Nat → Bool) (hnd : g.nodes.Nodup)
    (hroot : root ∈ g.nodes)
    (hcl : ∀ a ∈ g.nodes, ∀ b ∈ g.childMap a, b ∈ g.nodes)
    (x p₁ p₂ : Nat) (hx : Reachable g root x)
    (hp₁ : x ∈ g.childMap p₁) (hp₂ : x ∈ g.childMap p₂) (hne : p₁ ≠ p₂) :
    (iterGraph g root).count x = 1 ∧
      (∀ y, Reachable g root y → g.isObject y = true →
        set_initializing g root v fl y = v) :=
  ⟨count_iterGraph_eq_one g root x hnd hroot hcl hx,
   fun y hy hobj => set_initializing_flag g root v fl hroot hcl y hy hobj⟩

/-- Witness for C8: in the concrete graph, node 3 is shared by the
distinct parents 1 and 2, is visited exactly once, and its flag is
the supplied value afterwards. -/
theorem set_initializing_shared_once_witness :
    (iterGraph gEx 0).count 3 = 1 ∧
      set_initializing gEx 0 true flEx 3 = true := by
  have h := set_initializing_shared_once gEx 0 true flEx (by decide)
    (by decide) (by decide) 3 1 2 reach3 (by decide) (by decide) (by decide)
  exact ⟨h.1, h.2 3 reach3 (by decide)⟩

/-- C9: a ToNNX call with a falsy (absent or empty) per-call bundle
behaves exactly as if the construction-time stored bundle had been
supplied — in both the initializing and the already-initialized
branch, since the substitution happens before the branch; a truthy
per-call bundle takes precedence: the output and the post-call
attribute storage are unchanged under any replacement of the stored
bundle. -/
theorem toNNX_rngs_resolution (m : ToNNX)
    (initF : RngMap → MOut × List (String × VarTree))
    (applyFn : List (String × VarTree) → RngMap → MOut)
    (callRngs : Option Rngs) (mutableArg : Bool) :
    (rngsFalsy callRngs = true →
      toNNXCall m initF applyFn callRngs mutableArg =
        toNNXCall m initF applyFn m.rngs mutableArg) ∧
    (rngsFalsy callRngs = false → ∀ r' : Option Rngs,
      (toNNXCall { m with rngs := r' } initF applyFn callRngs mutableArg).1 =
          (toNNXCall m initF applyFn callRngs mutableArg).1 ∧
        (toNNXCall { m with rngs := r' } initF applyFn callRngs
            mutableArg).2.attrs =
          (toNNXCall m initF applyFn callRngs mutableArg).2.attrs) := by
  obtain ⟨mr, mc, ma, mi⟩ := m
  constructor
  · intro hf
    have h1 : resolveRngs callRngs mr = mr := by
      rw [resolveRngs, if_pos hf]
    have h2 : resolveRngs mr mr = mr := ite_self _
    simp only [toNNXCall, h1, h2]
  · intro hf r'
    have hneg : ¬ rngsFalsy callRngs = true := by
      rw [hf]; exact Bool.false_ne_true
    have h1 : resolveRngs callRngs r' = callRngs := by
      rw [resolveRngs, if_neg hneg]
    have h2 : resolveRngs callRngs mr = callRngs := by
      rw [resolveRngs, if_neg hneg]
    have hcv : collectVars (ToNNX.mk r' mc ma mi) =
        collectVars (ToNNX.mk mr mc ma mi) := rfl
    simp only [toNNXCall, h1, h2, hcv]
    cases mi
    · simp only [Bool.false_eq_true, if_false]
      exact ⟨finishMutable_fst _ _ _ _, finishMutable_attrs _ _ _ _ rfl⟩
    · rw [if_pos rfl, if_pos rfl]
      exact ⟨finishMutable_fst _ _ _ _, finishMutable_attrs _ _ _ _ rfl⟩

/-- Witness for C9: a falsy (absent) per-call bundle on a concrete
wrapper, and a truthy one overriding a replaced stored bundle. -/
theorem toNNX_rngs_resolution_witness :
    (toNNXCall mEx initFEx applyFnEx none false =
        toNNXCall mEx initFEx applyFnEx mEx.rngs false) ∧
      ((toNNXCall { mEx with rngs := some [(defaultKey, 9)] } initFEx
            applyFnEx (some [(defaultKey, 1)]) false).1 =
          (toNNXCall mEx initFEx applyFnEx (some [(defaultKey, 1)])
            false).1 ∧
        (toNNXCall { mEx with rngs := some [(defaultKey, 9)] } initFEx
            applyFnEx (some [(defaultKey, 1)]) false).2.attrs =
          (toNNXCall mEx initFEx applyFnEx (some [(defaultKey, 1)])
            false).2.attrs) :=
  ⟨(toNNX_rngs_resolution mEx initFEx applyFnEx none false).1 rfl,
   (toNNX_rngs_resolution mEx initFEx applyFnEx (some [(defaultKey, 1)])
      false).2 rfl (some [(defaultKey, 9)])⟩

/-- C10: on the non-initializing ToLinen path, the state handed to
`merge` is assembled from every stored collection except exactly
`'nnx'`: an entry is in the combined state precisely when it comes
from some non-`'nnx'` collection, and when only `'nnx'` collections
exist the combined state is empty. -/
theorem toLinen_state_assembly (vars : LinenVars) :
    (∀ e : String × (VarType × Int),
      e ∈ mergedNonNnxState vars ↔
        ∃ col tree, (col, tree) ∈ vars ∧ col ≠ nnxKey ∧
          e ∈ stateEntries tree) ∧
    ((∀ p ∈ vars, p.1 = nnxKey) → mergedNonNnxState vars = []) := by
  have hms := mergedNonNnxState_eq_concatAll vars
  constructor
  · intro e
    rw [hms, mem_concatAll]
    constructor
    · rintro ⟨s, hs, he⟩
      obtain ⟨⟨col, tree⟩, hq, rfl⟩ := List.mem_map.mp hs
      have hqf := List.mem_filter.mp hq
      exact ⟨col, tree, hqf.1, of_decide_eq_true hqf.2, he⟩
    · rintro ⟨col, tree, hmem, hne, he⟩
      exact ⟨stateEntries tree,
        List.mem_map.mpr ⟨(col, tree),
          List.mem_filter.mpr ⟨hmem, decide_eq_true hne⟩, rfl⟩, he⟩
  · intro hall
    rw [hms]
    have hnil : vars.filter (fun p => decide (p.1 ≠ nnxKey)) = [] := by
      rw [List.filter_eq_nil_iff]
      intro p hp
      simp [hall p hp]
    rw [hnil]
    rfl

/-- Witness for C10: a concrete store with an `'nnx'` collection and a
`'params'` collection — the parameter entry is in the combined state —
and a store with only `'nnx'`, whose combined state is empty. -/
theorem toLinen_state_assembly_witness :
    ((wKey, (paramsKey, (5 : Int))) ∈ mergedNonNnxState varsEx) ∧
      mergedNonNnxState [(nnxKey, [(graphdefKey, LVal.gdefV 7)])] = [] :=
  ⟨((toLinen_state_assembly varsEx).1 _).mpr
      ⟨paramsKey, [(wKey, LVal.varV paramsKey 5)], by decide, by decide,
        by decide⟩,
   (toLinen_state_assembly [(nnxKey, [(graphdefKey, LVal.gdefV 7)])]).2
      (by decide)⟩
